import Mathlib

/-!
Verification of the `line-col` lookup library (`src/lib.rs`).

The source text `&str` is embedded as a `List Char`; byte offsets are
computed with `Char.utf8Size`, which agrees with Rust's `char::len_utf8`.
`LineColLookup` is embedded as a structure holding the source text and the
lazily memoized line-head cache (`RefCell<Option<Vec<usize>>>` becomes an
`Option (List Nat)` field threaded explicitly through each operation).
Queries return a `QueryResult` whose non-`ok` constructors record the three
ways the Rust code can abort: the explicit out-of-range `panic!`, the
byte-slice panic of `&self.src[a..b]` on a non-character boundary, and the
trailing `unreachable!()`.
-/

/-- UTF-8 byte length of a text, matching Rust's `str::len`. -/
def byteLen (s : List Char) : Nat := (s.map Char.utf8Size).sum

/-- Helper for `charIndices`: pairs each character with its byte offset,
starting from offset `i`. -/
def charIndicesFrom (i : Nat) : List Char → List (Nat × Char)
  | [] => []
  | c :: rest => (i, c) :: charIndicesFrom (i + c.utf8Size) rest

/-- Embedding of `str::char_indices`: the characters of the text paired with
their UTF-8 byte offsets. -/
def charIndices (s : List Char) : List (Nat × Char) := charIndicesFrom 0 s

/-- The closure in `heads`: `Some(i + 1).filter(|_| c == '\n')`. -/
def nlHead (ic : Nat × Char) : Option Nat :=
  if ic.2 = '\n' then some (ic.1 + 1) else none

/-- The line-head table computed inside `LineColLookup::heads`:
`once(0).chain(src.char_indices().filter_map(...)).collect()`. -/
def computeHeads (src : List Char) : List Nat :=
  0 :: (charIndices src).filterMap nlHead

/-- Embedding of `LineColLookup<'source>`: the borrowed source text and the
`RefCell<Option<Vec<usize>>>` cache of line heads. -/
structure LineColLookup where
  src : List Char
  line_heads : Option (List Nat)
deriving DecidableEq

/-- Embedding of `LineColLookup::new`: stores the text, cache starts empty. -/
def LineColLookup.new (src : List Char) : LineColLookup :=
  { src := src, line_heads := none }

/-- Embedding of `LineColLookup::heads`: populates the cache if it is still
`None`, then returns the (possibly updated) state together with the borrowed
cache contents. -/
def LineColLookup.heads (l : LineColLookup) : LineColLookup × Option (List Nat) :=
  let l' := if l.line_heads.isNone
    then { l with line_heads := some (computeHeads l.src) }
    else l
  (l', l'.line_heads)

/-- One step of the binary-search loop shared by `get` and `get_by_cluster`,
with an explicit fuel argument bounding the number of iterations; the loop
shrinks `e - s` by at least one per iteration, so any `fuel ≥ e - s` is
enough. `heads.getD i 0` stands for `heads[i]`, whose index is always in
bounds along the search (proved below). -/
def searchLineGo (heads : List Nat) (index : Nat) : Nat → Nat → Nat → Nat
  | 0, s, _ => s
  | fuel + 1, s, e =>
    if e - s > 1 then
      let mid := s + (e - s) / 2
      if heads.getD s 0 ≤ index ∧ index < heads.getD mid 0 then
        searchLineGo heads index fuel s mid
      else
        searchLineGo heads index fuel mid e
    else s

/-- The binary search of `get`/`get_by_cluster` over the whole table:
`line_range` starts as `0..heads.len()`. -/
def findLine (heads : List Nat) (index : Nat) : Nat :=
  searchLineGo heads index heads.length 0 heads.length

/-- Result of a query: either a (line, column) pair, or one of the three ways
the Rust code aborts. -/
inductive QueryResult where
  | ok (line col : Nat)
  | indexPanic
  | slicePanic
  | unreachableHit
deriving DecidableEq

/-- Whether a query returned a value (did not panic). -/
def QueryResult.isOk : QueryResult → Bool
  | .ok _ _ => true
  | _ => false

/-- Embedding of `LineColLookup::get`, returning the updated state and the
query result. -/
def LineColLookup.get (l : LineColLookup) (index : Nat) :
    LineColLookup × QueryResult :=
  if index > byteLen l.src then (l, .indexPanic)
  else
    match LineColLookup.heads l with
    | (l', some heads) =>
      let L := findLine heads index
      let line_start_index := heads.getD L 0
      (l', .ok (L + 1) (index - line_start_index + 1))
    | (l', none) => (l', .unreachableHit)

/-- Drops `n` bytes from the front of a text along character boundaries;
`none` models the panic of slicing `&str` at a position that is past the end
or inside a multi-byte character. -/
def dropBytes : List Char → Nat → Option (List Char)
  | s, 0 => some s
  | [], _ + 1 => none
  | c :: rest, n + 1 =>
    if c.utf8Size ≤ n + 1 then dropBytes rest (n + 1 - c.utf8Size) else none

/-- Takes the first `n` bytes of a text along character boundaries; `none`
models the same slice panic as `dropBytes`. -/
def takeBytes : List Char → Nat → Option (List Char)
  | _, 0 => some []
  | [], _ + 1 => none
  | c :: rest, n + 1 =>
    if c.utf8Size ≤ n + 1 then (takeBytes rest (n + 1 - c.utf8Size)).map (c :: ·)
    else none

/-- Embedding of the byte slice `&self.src[a..b]`: `none` models the slice
panic (out of order, past the end, or not on a character boundary). -/
def sliceBytes (s : List Char) (a b : Nat) : Option (List Char) :=
  if a ≤ b then (dropBytes s a).bind (fun t => takeBytes t (b - a)) else none

/-- Embedding of `LineColLookup::get_by_cluster`. The external
text-segmentation capability (the `unicode_segmentation` crate behind the
`grapheme-clusters` feature) is passed in as the counting function `gc`, the
dependency-injection reading the spec proposes for the optional capability. -/
def LineColLookup.get_by_cluster (gc : List Char → Nat) (l : LineColLookup)
    (index : Nat) : LineColLookup × QueryResult :=
  if index > byteLen l.src then (l, .indexPanic)
  else
    match LineColLookup.heads l with
    | (l', some heads) =>
      let L := findLine heads index
      let line_start_index := heads.getD L 0
      let line := L + 1
      match sliceBytes l'.src line_start_index index with
      | some seg => (l', .ok line (gc seg + 1))
      | none => (l', .slicePanic)
    | (l', none) => (l', .unreachableHit)

/-- The zero-width joiner, U+200D. -/
def isZWJ (c : Char) : Bool := c = '‍'

/-- Helper for `graphemeCount`: counts cluster starts given the previous
character. -/
def graphemeCountGo (prev : Char) : List Char → Nat
  | [] => 0
  | c :: rest =>
    (if isZWJ prev || isZWJ c then 0 else 1) + graphemeCountGo c rest

/-- Modelled from the spec: the user-perceived-cluster counting capability
(`UnicodeSegmentation::graphemes(..).count()` from the external
`unicode_segmentation` crate, which is not part of this repository). A
character starts a new cluster unless it is a zero-width joiner or follows
one, so a multi-code-point ZWJ emoji sequence counts as a single cluster —
enough to be faithful on the spec's emoji scenario. -/
def graphemeCount : List Char → Nat
  | [] => 0
  | c :: rest => 1 + graphemeCountGo c rest

/-- The text of the repository's emoji test: `"The 👨‍👩‍👦 emoji is made of 5
code points and 18 bytes in UTF-8."`, with the family emoji written out as
its five code points (man, ZWJ, woman, ZWJ, boy), occupying bytes 4–22. -/
def emojiText : List Char :=
  'T' :: 'h' :: 'e' :: ' ' :: '👨' :: '‍' :: '👩' :: '‍' :: '👦' ::
    " emoji is made of 5 code points and 18 bytes in UTF-8.".toList

/-- A one-character text whose single character is two bytes wide in UTF-8,
so byte offset 1 is in range but not a character boundary. -/
def eAcuteText : List Char := ['é']

/-- The state of a lookup whose cache has been populated. -/
def LineColLookup.populated (src : List Char) : LineColLookup :=
  { src := src, line_heads := some (computeHeads src) }

/-! ## Helper lemmas -/

/-- The binary-search loop invariant: starting from a window `s..e` whose
left head is at or before `index` and whose right end is the table end or
strictly past `index`, the loop returns the index `L` of a line whose head is
at or before `index`, with the next head (if any) strictly past `index`. -/
theorem searchLineGo_spec (heads : List Nat) (index : Nat) :
    ∀ fuel s e, s < e → e - s ≤ fuel → e ≤ heads.length →
      heads.getD s 0 ≤ index →
      (e = heads.length ∨ index < heads.getD e 0) →
      s ≤ searchLineGo heads index fuel s e ∧
      searchLineGo heads index fuel s e < e ∧
      heads.getD (searchLineGo heads index fuel s e) 0 ≤ index ∧
      (searchLineGo heads index fuel s e + 1 = heads.length ∨
        index < heads.getD (searchLineGo heads index fuel s e + 1) 0) := by
  intro fuel
  induction fuel with
  | zero => intro s e hse hfuel _ _ _; omega
  | succ fuel ih =>
    intro s e hse hfuel he hs hend
    by_cases hgt : e - s > 1
    · by_cases hcond : heads.getD s 0 ≤ index ∧ index < heads.getD (s + (e - s) / 2) 0
      · have hrec := ih s (s + (e - s) / 2) (by omega) (by omega) (by omega) hs
          (Or.inr hcond.2)
        simp only [searchLineGo, if_pos hgt, if_pos hcond]
        obtain ⟨h1, h2, h3, h4⟩ := hrec
        exact ⟨h1, by omega, h3, h4⟩
      · have hmid : heads.getD (s + (e - s) / 2) 0 ≤ index := by
          rcases Nat.lt_or_ge index (heads.getD (s + (e - s) / 2) 0) with hx | hx
          · exact absurd ⟨hs, hx⟩ hcond
          · exact hx
        have hrec := ih (s + (e - s) / 2) e (by omega) (by omega) he hmid hend
        simp only [searchLineGo, if_pos hgt, if_neg hcond]
        obtain ⟨h1, h2, h3, h4⟩ := hrec
        exact ⟨by omega, h2, h3, h4⟩
    · simp only [searchLineGo, if_neg hgt]
      have : e = s + 1 := by omega
      subst this
      exact ⟨le_rfl, by omega, hs, hend⟩

/-- The full-table binary search finds a valid line for any query offset. -/
theorem findLine_spec (heads : List Nat) (index : Nat) (hlen : 0 < heads.length)
    (h0 : heads.getD 0 0 ≤ index) :
    findLine heads index < heads.length ∧
    heads.getD (findLine heads index) 0 ≤ index ∧
    (findLine heads index + 1 < heads.length →
      index < heads.getD (findLine heads index + 1) 0) := by
  obtain ⟨-, h2, h3, h4⟩ := searchLineGo_spec heads index heads.length 0 heads.length
    hlen (by omega) le_rfl h0 (Or.inl rfl)
  simp only [findLine]
  exact ⟨h2, h3, fun hlt => by rcases h4 with h | h; omega; exact h⟩

/-- `getD` is monotone on a strictly sorted list. -/
theorem pairwise_getD_le (hs : List Nat) (hp : List.Pairwise (· < ·) hs)
    (a b : Nat) (hab : a ≤ b) (hb : b < hs.length) :
    hs.getD a 0 ≤ hs.getD b 0 := by
  rcases Nat.eq_or_lt_of_le hab with rfl | hlt
  · exact le_rfl
  · have ha : a < hs.length := lt_trans hlt hb
    rw [List.getD_eq_getElem hs 0 ha, List.getD_eq_getElem hs 0 hb]
    exact le_of_lt (List.pairwise_iff_getElem.mp hp a b ha hb hlt)

/-- `getD` is strictly monotone on a strictly sorted list. -/
theorem pairwise_getD_lt (hs : List Nat) (hp : List.Pairwise (· < ·) hs)
    (a b : Nat) (hab : a < b) (hb : b < hs.length) :
    hs.getD a 0 < hs.getD b 0 := by
  have ha : a < hs.length := lt_trans hab hb
  rw [List.getD_eq_getElem hs 0 ha, List.getD_eq_getElem hs 0 hb]
  exact List.pairwise_iff_getElem.mp hp a b ha hb hab

/-- On a strictly sorted table, at most one line satisfies the half-open
range condition for a given offset. -/
theorem line_unique (hs : List Nat) (hp : List.Pairwise (· < ·) hs)
    (index L1 L2 : Nat) (h1 : L1 < hs.length) (h2 : L2 < hs.length)
    (ha1 : hs.getD L1 0 ≤ index)
    (hb1 : L1 + 1 < hs.length → index < hs.getD (L1 + 1) 0)
    (ha2 : hs.getD L2 0 ≤ index)
    (hb2 : L2 + 1 < hs.length → index < hs.getD (L2 + 1) 0) :
    L1 = L2 := by
  rcases Nat.lt_trichotomy L1 L2 with h | h | h
  · have hx := hb1 (by omega)
    have hy := pairwise_getD_le hs hp (L1 + 1) L2 (by omega) h2
    omega
  · exact h
  · have hx := hb2 (by omega)
    have hy := pairwise_getD_le hs hp (L2 + 1) L1 (by omega) h1
    omega

theorem byteLen_nil : byteLen [] = 0 := rfl

theorem byteLen_cons (c : Char) (s : List Char) :
    byteLen (c :: s) = c.utf8Size + byteLen s := by
  simp [byteLen]

/-- Bounds on the entries contributed by the newline scan: each recorded
head is strictly past the starting offset and within the text. -/
theorem nlHeads_mem_bounds (s : List Char) :
    ∀ i x, x ∈ (charIndicesFrom i s).filterMap nlHead →
      i + 1 ≤ x ∧ x ≤ i + byteLen s := by
  induction s with
  | nil => intro i x hx; simp [charIndicesFrom] at hx
  | cons c rest ih =>
    intro i x hx
    have hsz := Char.utf8Size_pos c
    by_cases hc : c = '\n'
    · subst hc
      simp only [charIndicesFrom, List.filterMap_cons, nlHead, if_pos rfl] at hx
      rcases List.mem_cons.mp hx with rfl | hx
      · rw [byteLen_cons]; omega
      · have := ih (i + '\n'.utf8Size) x hx
        rw [byteLen_cons]; omega
    · simp only [charIndicesFrom, List.filterMap_cons, nlHead, if_neg hc] at hx
      have := ih (i + c.utf8Size) x hx
      rw [byteLen_cons]; omega

/-- The newline scan produces a strictly increasing list of heads. -/
theorem nlHeads_pairwise (s : List Char) :
    ∀ i, List.Pairwise (· < ·) ((charIndicesFrom i s).filterMap nlHead) := by
  induction s with
  | nil => intro i; simp [charIndicesFrom]
  | cons c rest ih =>
    intro i
    by_cases hc : c = '\n'
    · subst hc
      have hsz := Char.utf8Size_pos '\n'
      simp only [charIndicesFrom, List.filterMap_cons, nlHead, if_pos rfl]
      refine List.pairwise_cons.mpr ⟨?_, ih (i + '\n'.utf8Size)⟩
      intro x hx
      have := nlHeads_mem_bounds rest (i + '\n'.utf8Size) x hx
      omega
    · simp only [charIndicesFrom, List.filterMap_cons, nlHead, if_neg hc]
      exact ih (i + c.utf8Size)

/-- The newline scan records exactly one head per `'\n'` in the text. -/
theorem nlHeads_length (s : List Char) :
    ∀ i, ((charIndicesFrom i s).filterMap nlHead).length
      = (s.filter (fun c => c == '\n')).length := by
  induction s with
  | nil => intro i; simp [charIndicesFrom]
  | cons c rest ih =>
    intro i
    by_cases hc : c = '\n'
    · simp [charIndicesFrom, List.filterMap_cons, nlHead, hc, ih]
    · simp [charIndicesFrom, List.filterMap_cons, nlHead, hc, ih]

/-- Every head recorded by the newline scan is a character boundary of the
remaining text (relative to the scan's starting offset). -/
theorem nlHeads_boundary (s : List Char) :
    ∀ i x, x ∈ (charIndicesFrom i s).filterMap nlHead →
      (dropBytes s (x - i)).isSome = true := by
  induction s with
  | nil => intro i x hx; simp [charIndicesFrom] at hx
  | cons c rest ih =>
    intro i x hx
    have hsz := Char.utf8Size_pos c
    have hb := nlHeads_mem_bounds (c :: rest) i x hx
    by_cases hc : c = '\n'
    · subst hc
      simp only [charIndicesFrom, List.filterMap_cons, nlHead, if_pos rfl] at hx
      rcases List.mem_cons.mp hx with rfl | hx
      · have h1 : dropBytes ('\n' :: rest) 1 = some rest := by
          have hn : '\n'.utf8Size = 1 := by decide
          simp [dropBytes, hn]
        have h2 : i + 1 - i = 1 := by omega
        rw [h2, h1]
        rfl
      · have hbb := nlHeads_mem_bounds rest (i + '\n'.utf8Size) x hx
        have hrec := ih (i + '\n'.utf8Size) x hx
        obtain ⟨k, hk⟩ : ∃ k, x - i = k + 1 := ⟨x - i - 1, by omega⟩
        rw [hk]
        simp only [dropBytes]
        rw [if_pos (by omega)]
        have : k + 1 - '\n'.utf8Size = x - (i + '\n'.utf8Size) := by omega
        rw [this]
        exact hrec
    · simp only [charIndicesFrom, List.filterMap_cons, nlHead, if_neg hc] at hx
      have hbb := nlHeads_mem_bounds rest (i + c.utf8Size) x hx
      have hrec := ih (i + c.utf8Size) x hx
      obtain ⟨k, hk⟩ : ∃ k, x - i = k + 1 := ⟨x - i - 1, by omega⟩
      rw [hk]
      simp only [dropBytes]
      rw [if_pos (by omega)]
      have : k + 1 - c.utf8Size = x - (i + c.utf8Size) := by omega
      rw [this]
      exact hrec

theorem computeHeads_length_pos (src : List Char) :
    0 < (computeHeads src).length := by
  simp [computeHeads]

theorem computeHeads_getD_zero (src : List Char) :
    (computeHeads src).getD 0 0 = 0 := rfl

theorem computeHeads_pairwise (src : List Char) :
    List.Pairwise (· < ·) (computeHeads src) := by
  refine List.pairwise_cons.mpr ⟨?_, nlHeads_pairwise src 0⟩
  intro x hx
  have := nlHeads_mem_bounds src 0 x hx
  omega

theorem computeHeads_mem_le (src : List Char) :
    ∀ x ∈ computeHeads src, x ≤ byteLen src := by
  intro x hx
  rcases List.mem_cons.mp hx with rfl | hx
  · exact Nat.zero_le _
  · have := nlHeads_mem_bounds src 0 x hx
    omega

theorem computeHeads_boundary (src : List Char) :
    ∀ x ∈ computeHeads src, (dropBytes src x).isSome = true := by
  intro x hx
  rcases List.mem_cons.mp hx with rfl | hx
  · simp [dropBytes]
  · have := nlHeads_boundary src 0 x hx
    simpa using this

/-- An in-bounds `getD` is a member of the list. -/
theorem getD_mem (hs : List Nat) (n : Nat) (hn : n < hs.length) :
    hs.getD n 0 ∈ hs := by
  rw [List.getD_eq_getElem hs 0 hn]
  exact List.getElem_mem hn

/-- Dropping `a + k` bytes is dropping `a` bytes and then `k` more. -/
theorem dropBytes_add (k : Nat) :
    ∀ (s t : List Char) (a : Nat), dropBytes s a = some t →
      dropBytes s (a + k) = dropBytes t k := by
  intro s
  induction s with
  | nil =>
    intro t a h
    cases a with
    | zero =>
      simp only [dropBytes, Option.some.injEq] at h
      subst h
      simp [Nat.zero_add]
    | succ n => simp [dropBytes] at h
  | cons c rest ih =>
    intro t a h
    cases a with
    | zero =>
      simp only [dropBytes, Option.some.injEq] at h
      subst h
      simp [Nat.zero_add]
    | succ n =>
      simp only [dropBytes] at h
      by_cases hle : c.utf8Size ≤ n + 1
      · rw [if_pos hle] at h
        have heq : n + 1 + k = (n + k) + 1 := by omega
        rw [heq]
        simp only [dropBytes]
        rw [if_pos (by omega)]
        have heq2 : n + k + 1 - c.utf8Size = (n + 1 - c.utf8Size) + k := by omega
        rw [heq2]
        exact ih t (n + 1 - c.utf8Size) h
      · rw [if_neg hle] at h
        exact absurd h (by simp)

/-- Taking and dropping succeed on exactly the same byte counts. -/
theorem takeBytes_isSome_iff (s : List Char) :
    ∀ n, (takeBytes s n).isSome = (dropBytes s n).isSome := by
  induction s with
  | nil => intro n; cases n <;> simp [takeBytes, dropBytes]
  | cons c rest ih =>
    intro n
    cases n with
    | zero => simp [takeBytes, dropBytes]
    | succ m =>
      simp only [takeBytes, dropBytes]
      by_cases h : c.utf8Size ≤ m + 1
      · rw [if_pos h, if_pos h]
        simp [ih]
      · rw [if_neg h, if_neg h]

/-- Given a valid left endpoint, a byte slice succeeds exactly when the right
endpoint is a character boundary. -/
theorem sliceBytes_isSome (s : List Char) (a b : Nat) (hab : a ≤ b)
    (t : List Char) (ht : dropBytes s a = some t) :
    (sliceBytes s a b).isSome = (dropBytes s b).isSome := by
  have hstep := dropBytes_add (b - a) s t a ht
  have heq : a + (b - a) = b := by omega
  rw [heq] at hstep
  rw [sliceBytes, if_pos hab, ht]
  have hbind : (some t).bind (fun u => takeBytes u (b - a)) = takeBytes t (b - a) := rfl
  rw [hbind, takeBytes_isSome_iff, hstep]

/-- First call to `heads` on a fresh lookup populates the cache. -/
theorem heads_new (src : List Char) :
    (LineColLookup.new src).heads =
      (LineColLookup.populated src, some (computeHeads src)) := rfl

/-- `heads` on a populated lookup is the identity on the state. -/
theorem heads_populated_eq (src : List Char) :
    (LineColLookup.populated src).heads =
      (LineColLookup.populated src, some (computeHeads src)) := rfl

/-- `heads` never recomputes or changes an already-populated cache. -/
theorem heads_some_state (l : LineColLookup) (t : List Nat)
    (h : l.line_heads = some t) : l.heads = (l, some t) := by
  simp [LineColLookup.heads, h]

/-- Evaluation of an in-range `get` on a fresh lookup. -/
theorem get_new_eq (src : List Char) (index : Nat) (h : index ≤ byteLen src) :
    (LineColLookup.new src).get index =
      (LineColLookup.populated src,
        .ok (findLine (computeHeads src) index + 1)
          (index - (computeHeads src).getD (findLine (computeHeads src) index) 0 + 1)) := by
  have hn : ¬ index > byteLen (LineColLookup.new src).src := by
    have : (LineColLookup.new src).src = src := rfl
    rw [this]; omega
  unfold LineColLookup.get
  rw [if_neg hn, heads_new]

/-- Evaluation of an in-range `get_by_cluster` on a fresh lookup when the
byte slice from the found line head succeeds. -/
theorem get_by_cluster_new_ok (gc : List Char → Nat) (src : List Char)
    (index : Nat) (h : index ≤ byteLen src) (seg : List Char)
    (hs : sliceBytes src
      ((computeHeads src).getD (findLine (computeHeads src) index) 0) index = some seg) :
    LineColLookup.get_by_cluster gc (LineColLookup.new src) index =
      (LineColLookup.populated src,
        .ok (findLine (computeHeads src) index + 1) (gc seg + 1)) := by
  have hn : ¬ index > byteLen (LineColLookup.new src).src := by
    have : (LineColLookup.new src).src = src := rfl
    rw [this]; omega
  unfold LineColLookup.get_by_cluster
  rw [if_neg hn, heads_new]
  simp only [LineColLookup.populated, hs]

/-- Evaluation of an in-range `get_by_cluster` on a fresh lookup when the
byte slice from the found line head fails: the slice panic. -/
theorem get_by_cluster_new_panic (gc : List Char → Nat) (src : List Char)
    (index : Nat) (h : index ≤ byteLen src)
    (hs : sliceBytes src
      ((computeHeads src).getD (findLine (computeHeads src) index) 0) index = none) :
    LineColLookup.get_by_cluster gc (LineColLookup.new src) index =
      (LineColLookup.populated src, .slicePanic) := by
  have hn : ¬ index > byteLen (LineColLookup.new src).src := by
    have : (LineColLookup.new src).src = src := rfl
    rw [this]; omega
  unfold LineColLookup.get_by_cluster
  rw [if_neg hn, heads_new]
  simp only [LineColLookup.populated, hs]

/-- A `get` on a populated lookup never changes the state. -/
theorem get_populated_state (src : List Char) (index : Nat) :
    ((LineColLookup.populated src).get index).1 = LineColLookup.populated src := by
  by_cases h : index > byteLen (LineColLookup.populated src).src
  · unfold LineColLookup.get
    rw [if_pos h]
  · unfold LineColLookup.get
    rw [if_neg h, heads_populated_eq]

/-- A `get_by_cluster` on a populated lookup never changes the state. -/
theorem get_by_cluster_populated_state (gc : List Char → Nat) (src : List Char)
    (index : Nat) :
    (LineColLookup.get_by_cluster gc (LineColLookup.populated src) index).1
      = LineColLookup.populated src := by
  by_cases h : index > byteLen (LineColLookup.populated src).src
  · unfold LineColLookup.get_by_cluster
    rw [if_pos h]
  · unfold LineColLookup.get_by_cluster
    rw [if_neg h, heads_populated_eq]
    cases hsl : sliceBytes (LineColLookup.populated src).src
        ((computeHeads src).getD (findLine (computeHeads src) index) 0) index with
    | some seg => simp only [hsl]
    | none => simp only [hsl]

/-- Queries never mutate the source text reference. -/
theorem get_new_state_src (src : List Char) (index : Nat) :
    ((LineColLookup.new src).get index).1.src = src := by
  have hs0 : (LineColLookup.new src).src = src := rfl
  by_cases h : index > byteLen src
  · unfold LineColLookup.get
    rw [hs0, if_pos h]
    exact hs0
  · rw [get_new_eq src index (by omega)]
    rfl

theorem get_by_cluster_new_state_src (gc : List Char → Nat) (src : List Char)
    (index : Nat) :
    (LineColLookup.get_by_cluster gc (LineColLookup.new src) index).1.src = src := by
  have hs0 : (LineColLookup.new src).src = src := rfl
  by_cases h : index > byteLen src
  · unfold LineColLookup.get_by_cluster
    rw [hs0, if_pos h]
    exact hs0
  · cases hsl : sliceBytes src
        ((computeHeads src).getD (findLine (computeHeads src) index) 0) index with
    | some seg =>
      rw [get_by_cluster_new_ok gc src index (by omega) seg hsl]
      rfl
    | none =>
      rw [get_by_cluster_new_panic gc src index (by omega) hsl]
      rfl

/-- For an in-range index, `get_by_cluster` returns a value exactly when the
index is a character boundary of the text. -/
theorem get_by_cluster_ok_iff (gc : List Char → Nat) (src : List Char)
    (index : Nat) (h : index ≤ byteLen src) :
    (LineColLookup.get_by_cluster gc (LineColLookup.new src) index).2.isOk
      = (dropBytes src index).isSome := by
  have hfs := findLine_spec (computeHeads src) index (computeHeads_length_pos src)
    (by rw [computeHeads_getD_zero]; omega)
  have hamem : (computeHeads src).getD (findLine (computeHeads src) index) 0
      ∈ computeHeads src := getD_mem _ _ hfs.1
  have hbnd := computeHeads_boundary src _ hamem
  obtain ⟨t, ht⟩ := Option.isSome_iff_exists.mp hbnd
  have hiff := sliceBytes_isSome src
    ((computeHeads src).getD (findLine (computeHeads src) index) 0) index
    hfs.2.1 t ht
  cases hsl : sliceBytes src
      ((computeHeads src).getD (findLine (computeHeads src) index) 0) index with
  | some seg =>
    rw [get_by_cluster_new_ok gc src index h seg hsl]
    rw [hsl] at hiff
    simp only [Option.isSome_some] at hiff
    rw [← hiff]
    rfl
  | none =>
    rw [get_by_cluster_new_panic gc src index h hsl]
    rw [hsl] at hiff
    simp only [Option.isSome_none] at hiff
    rw [← hiff]
    rfl

/-! ## Claim theorems -/

/-- Claim C1: for every text and every offset `index ≤ length(text)`, `get`
returns `(L + 1, index - line_start[L] + 1)` where `L` is the unique line
whose half-open range `[line_start[L], line_start[L+1])` contains `index`
(the last line's range extending to end of text); in particular, an index
exactly equal to a recorded line-start offset resolves to that line with
column 1. -/
theorem C1_get_locates_unique_line (src : List Char) (index : Nat)
    (h : index ≤ byteLen src) :
    ∃ L,
      ((LineColLookup.new src).get index).2 =
        .ok (L + 1) (index - (computeHeads src).getD L 0 + 1) ∧
      L < (computeHeads src).length ∧
      (computeHeads src).getD L 0 ≤ index ∧
      (L + 1 < (computeHeads src).length →
        index < (computeHeads src).getD (L + 1) 0) ∧
      (∀ M, M < (computeHeads src).length →
        (computeHeads src).getD M 0 ≤ index →
        (M + 1 < (computeHeads src).length →
          index < (computeHeads src).getD (M + 1) 0) →
        M = L) ∧
      (∀ k, k < (computeHeads src).length →
        index = (computeHeads src).getD k 0 →
        ((LineColLookup.new src).get index).2 = .ok (k + 1) 1) := by
  have hfs := findLine_spec (computeHeads src) index (computeHeads_length_pos src)
    (by rw [computeHeads_getD_zero]; omega)
  refine ⟨findLine (computeHeads src) index, ?_, hfs.1, hfs.2.1, hfs.2.2, ?_, ?_⟩
  · rw [get_new_eq src index h]
  · intro M hM ha hb
    exact line_unique (computeHeads src) (computeHeads_pairwise src) index M
      (findLine (computeHeads src) index) hM hfs.1 ha hb hfs.2.1 hfs.2.2
  · intro k hk hidx
    have hkL : k = findLine (computeHeads src) index := by
      refine line_unique (computeHeads src) (computeHeads_pairwise src) index k
        (findLine (computeHeads src) index) hk hfs.1 (by omega) ?_ hfs.2.1 hfs.2.2
      intro hlt
      have := pairwise_getD_lt (computeHeads src) (computeHeads_pairwise src)
        k (k + 1) (by omega) hlt
      omega
    rw [get_new_eq src index h, ← hkL]
    have hz : index - (computeHeads src).getD k 0 = 0 := by omega
    rw [hz]

/-- Witness for C1 at text `"a\nab\nabc"` and offset 5 (start of line 3). -/
theorem C1_get_locates_unique_line_witness :
    ∃ L,
      ((LineColLookup.new "a\nab\nabc".toList).get 5).2 =
        .ok (L + 1) (5 - (computeHeads "a\nab\nabc".toList).getD L 0 + 1) ∧
      L < (computeHeads "a\nab\nabc".toList).length ∧
      (computeHeads "a\nab\nabc".toList).getD L 0 ≤ 5 ∧
      (L + 1 < (computeHeads "a\nab\nabc".toList).length →
        5 < (computeHeads "a\nab\nabc".toList).getD (L + 1) 0) ∧
      (∀ M, M < (computeHeads "a\nab\nabc".toList).length →
        (computeHeads "a\nab\nabc".toList).getD M 0 ≤ 5 →
        (M + 1 < (computeHeads "a\nab\nabc".toList).length →
          5 < (computeHeads "a\nab\nabc".toList).getD (M + 1) 0) →
        M = L) ∧
      (∀ k, k < (computeHeads "a\nab\nabc".toList).length →
        5 = (computeHeads "a\nab\nabc".toList).getD k 0 →
        ((LineColLookup.new "a\nab\nabc".toList).get 5).2 = .ok (k + 1) 1) :=
  C1_get_locates_unique_line "a\nab\nabc".toList 5 (by decide)

/-- Claim C5: the line-start table built by `heads()` starts with 0, gains
exactly one entry (the offset immediately after the terminator) per `'\n'`
in the text, is strictly increasing and non-empty, and is `[0]` for the
empty text. -/
theorem C5_heads_table_invariants (src : List Char) :
    (LineColLookup.heads (LineColLookup.new src)).2 = some (computeHeads src) ∧
    (computeHeads src).getD 0 0 = 0 ∧
    (computeHeads src).length = 1 + (src.filter (fun c => c == '\n')).length ∧
    (∀ x, x ∈ computeHeads src ↔
      x = 0 ∨ ∃ ic ∈ charIndices src, ic.2 = '\n' ∧ x = ic.1 + 1) ∧
    List.Pairwise (· < ·) (computeHeads src) ∧
    computeHeads src ≠ [] ∧
    computeHeads ([] : List Char) = [0] := by
  refine ⟨by rw [heads_new], computeHeads_getD_zero src, ?_, ?_, ?_, ?_, rfl⟩
  · simp [computeHeads, nlHeads_length src 0, charIndices, Nat.add_comm]
  · intro x
    simp only [computeHeads, List.mem_cons, List.mem_filterMap, charIndices]
    constructor
    · rintro (rfl | ⟨ic, hic, hn⟩)
      · exact Or.inl rfl
      · refine Or.inr ⟨ic, hic, ?_⟩
        by_cases hc : ic.2 = '\n'
        · simp [nlHead, hc] at hn
          exact ⟨hc, hn.symm⟩
        · simp [nlHead, hc] at hn
    · rintro (rfl | ⟨ic, hic, hc, rfl⟩)
      · exact Or.inl rfl
      · exact Or.inr ⟨ic, hic, by simp [nlHead, hc]⟩
  · exact computeHeads_pairwise src
  · simp [computeHeads]

/-- Claim C6: `get(length(text))` succeeds and returns the last line with
column `length(text) - start_of_last_line + 1`; for the empty text,
`get 0 = (1, 1)`. -/
theorem C6_get_at_end_of_text (src : List Char) :
    ((LineColLookup.new src).get (byteLen src)).2 =
      .ok (computeHeads src).length
        (byteLen src -
          (computeHeads src).getD ((computeHeads src).length - 1) 0 + 1) ∧
    ((LineColLookup.new ([] : List Char)).get 0).2 = .ok 1 1 := by
  constructor
  · have hlen := computeHeads_length_pos src
    have hfs := findLine_spec (computeHeads src) (byteLen src) hlen
      (by rw [computeHeads_getD_zero]; omega)
    have hlast : findLine (computeHeads src) (byteLen src)
        = (computeHeads src).length - 1 := by
      refine line_unique (computeHeads src) (computeHeads_pairwise src)
        (byteLen src) (findLine (computeHeads src) (byteLen src))
        ((computeHeads src).length - 1) hfs.1 (by omega)
        hfs.2.1 hfs.2.2 ?_ (by omega)
      exact computeHeads_mem_le src _ (getD_mem _ _ (by omega))
    rw [get_new_eq src (byteLen src) le_rfl, hlast]
    have hone : (computeHeads src).length - 1 + 1 = (computeHeads src).length := by
      omega
    rw [hone]
  · rfl

theorem get_indexPanic_of_gt (src : List Char) (index : Nat)
    (h : byteLen src < index) :
    (LineColLookup.new src).get index = (LineColLookup.new src, .indexPanic) := by
  have hs0 : (LineColLookup.new src).src = src := rfl
  unfold LineColLookup.get
  rw [hs0, if_pos h]

theorem get_by_cluster_indexPanic_of_gt (gc : List Char → Nat) (src : List Char)
    (index : Nat) (h : byteLen src < index) :
    LineColLookup.get_by_cluster gc (LineColLookup.new src) index
      = (LineColLookup.new src, .indexPanic) := by
  have hs0 : (LineColLookup.new src).src = src := rfl
  unfold LineColLookup.get_by_cluster
  rw [hs0, if_pos h]

/-- After any `heads` call the returned cache is `some`. -/
theorem heads_snd_eq (l : LineColLookup) :
    ∃ l' t, LineColLookup.heads l = (l', some t) := by
  cases hl : l.line_heads with
  | none =>
    exact ⟨{ l with line_heads := some (computeHeads l.src) }, computeHeads l.src,
      by simp [LineColLookup.heads, hl]⟩
  | some t => exact ⟨l, t, heads_some_state l t hl⟩

theorem get_never_unreachable (l : LineColLookup) (index : Nat) :
    (l.get index).2 ≠ .unreachableHit := by
  obtain ⟨l', t, hht⟩ := heads_snd_eq l
  unfold LineColLookup.get
  by_cases h : index > byteLen l.src
  · rw [if_pos h]
    simp
  · rw [if_neg h, hht]
    simp

theorem get_by_cluster_never_unreachable (gc : List Char → Nat)
    (l : LineColLookup) (index : Nat) :
    (LineColLookup.get_by_cluster gc l index).2 ≠ .unreachableHit := by
  obtain ⟨l', t, hht⟩ := heads_snd_eq l
  unfold LineColLookup.get_by_cluster
  by_cases h : index > byteLen l.src
  · rw [if_pos h]
    simp
  · rw [if_neg h, hht]
    cases hsl : sliceBytes l'.src (t.getD (findLine t index) 0) index with
    | some seg =>
      simp only [hsl]
      simp
    | none =>
      simp only [hsl]
      simp

/-- Claim C2 (counterexample): on the one-character two-byte text `"é"`,
the offset 1 is in range (`1 ≤ 2`) yet `get_by_cluster` panics (with the
byte-slice panic), so the panic condition is not equivalent to
`index > length(text)`. -/
theorem C2_counterexample_slice_panic_in_range :
    1 ≤ byteLen eAcuteText ∧
    (LineColLookup.get_by_cluster graphemeCount (LineColLookup.new eAcuteText) 1).2
      = .slicePanic ∧
    ¬(((LineColLookup.get_by_cluster graphemeCount
        (LineColLookup.new eAcuteText) 1).2.isOk = false) ↔
      byteLen eAcuteText < 1) :=
  ⟨by decide, by decide, by decide⟩

/-- Claim C2 (amended): `get` panics exactly when `index > length(text)`;
`get_by_cluster` panics exactly when `index > length(text)` or `index` is in
range but not a character boundary (the byte-slice panic). Neither ever
returns a value in a panic case. -/
theorem C2_amended_panic_characterization (gc : List Char → Nat)
    (src : List Char) (index : Nat) :
    (((LineColLookup.new src).get index).2.isOk = false ↔ byteLen src < index) ∧
    ((LineColLookup.get_by_cluster gc (LineColLookup.new src) index).2.isOk = false ↔
      (byteLen src < index ∨ dropBytes src index = none)) := by
  constructor
  · constructor
    · intro hpan
      by_contra hcon
      push_neg at hcon
      rw [get_new_eq src index hcon] at hpan
      simp [QueryResult.isOk] at hpan
    · intro hgt
      rw [get_indexPanic_of_gt src index hgt]
      rfl
  · constructor
    · intro hpan
      by_contra hcon
      push_neg at hcon
      obtain ⟨hle, hbd⟩ := hcon
      have hiff := get_by_cluster_ok_iff gc src index hle
      rw [hpan] at hiff
      cases hdb : dropBytes src index with
      | none => exact hbd hdb
      | some t => rw [hdb] at hiff; simp at hiff
    · intro hor
      rcases hor with hgt | hnone
      · rw [get_by_cluster_indexPanic_of_gt gc src index hgt]
        rfl
      · by_cases hle : index ≤ byteLen src
        · have hiff := get_by_cluster_ok_iff gc src index hle
          rw [hnone] at hiff
          simpa using hiff
        · rw [get_by_cluster_indexPanic_of_gt gc src index (by omega)]
          rfl

/-- Witness for the amended C2: the out-of-range query on the empty text
does not return a value. -/
theorem C2_amended_witness :
    ((LineColLookup.new ([] : List Char)).get 1).2.isOk = false :=
  (C2_amended_panic_characterization graphemeCount [] 1).1.mpr (by decide)

/-- Claim C3 (counterexample): an in-range `get_by_cluster` query can fail:
on `"é"` (length 2), the query at offset 1 returns no value. -/
theorem C3_counterexample_in_range_failure :
    1 ≤ byteLen eAcuteText ∧
    (LineColLookup.get_by_cluster graphemeCount (LineColLookup.new eAcuteText) 1).2.isOk
      = false :=
  ⟨by decide, by decide⟩

/-- Claim C3 (amended): construction succeeds for every text including the
empty one; every `get` with `index ≤ length(text)` returns a value
deterministically; and every `get_by_cluster` with an in-range index that is
a character boundary returns a value deterministically (in-range queries at
non-boundary indices are the one extra panic). -/
theorem C3_amended_totality (gc : List Char → Nat) (src : List Char)
    (index : Nat) :
    LineColLookup.new src = { src := src, line_heads := none } ∧
    (index ≤ byteLen src →
      ∃ ln c, ((LineColLookup.new src).get index).2 = .ok ln c) ∧
    (index ≤ byteLen src → (dropBytes src index).isSome = true →
      ∃ ln c,
        (LineColLookup.get_by_cluster gc (LineColLookup.new src) index).2
          = .ok ln c) := by
  refine ⟨rfl, ?_, ?_⟩
  · intro h
    exact ⟨findLine (computeHeads src) index + 1,
      index - (computeHeads src).getD (findLine (computeHeads src) index) 0 + 1,
      by rw [get_new_eq src index h]⟩
  · intro h hb
    have hiff := get_by_cluster_ok_iff gc src index h
    rw [hb] at hiff
    cases hq : (LineColLookup.get_by_cluster gc (LineColLookup.new src) index).2 with
    | ok ln c => exact ⟨ln, c, rfl⟩
    | indexPanic => rw [hq] at hiff; simp [QueryResult.isOk] at hiff
    | slicePanic => rw [hq] at hiff; simp [QueryResult.isOk] at hiff
    | unreachableHit => rw [hq] at hiff; simp [QueryResult.isOk] at hiff

/-- Witness for the amended C3: the end-of-text query on `"One\nTwo"`
returns a value. -/
theorem C3_amended_witness :
    ∃ ln c, ((LineColLookup.new "One\nTwo".toList).get 7).2 = .ok ln c :=
  (C3_amended_totality graphemeCount "One\nTwo".toList 7).2.1 (by decide)

/-- Claim C4: whenever `get_by_cluster` succeeds on an in-range index, its
column is the cluster count of the text between the found line's start and
the index, plus one; concretely, on the emoji text whose family emoji
occupies bytes 4–22, the query at offset 22 yields column 6 by clusters
while `get` yields column 23. -/
theorem C4_cluster_column (gc : List Char → Nat) (src : List Char)
    (index : Nat) (h : index ≤ byteLen src) (ln c : Nat)
    (hok : (LineColLookup.get_by_cluster gc (LineColLookup.new src) index).2
      = .ok ln c) :
    (∃ seg, sliceBytes src ((computeHeads src).getD (ln - 1) 0) index = some seg ∧
      c = gc seg + 1) ∧
    (LineColLookup.get_by_cluster graphemeCount (LineColLookup.new emojiText) 22).2
      = .ok 1 6 ∧
    ((LineColLookup.new emojiText).get 22).2 = .ok 1 23 := by
  refine ⟨?_, by decide, by decide⟩
  cases hsl : sliceBytes src
      ((computeHeads src).getD (findLine (computeHeads src) index) 0) index with
  | some seg =>
    rw [get_by_cluster_new_ok gc src index h seg hsl] at hok
    obtain ⟨h1, h2⟩ := QueryResult.ok.inj hok
    refine ⟨seg, ?_, h2.symm⟩
    have hm1 : ln - 1 = findLine (computeHeads src) index := by omega
    rw [hm1]
    exact hsl
  | none =>
    rw [get_by_cluster_new_panic gc src index h hsl] at hok
    simp at hok

/-- Witness for C4 at the emoji text and offset 22. -/
theorem C4_cluster_column_witness :
    (∃ seg,
      sliceBytes emojiText ((computeHeads emojiText).getD ((1 : Nat) - 1) 0) 22
        = some seg ∧ (6 : Nat) = graphemeCount seg + 1) ∧
    (LineColLookup.get_by_cluster graphemeCount (LineColLookup.new emojiText) 22).2
      = .ok 1 6 ∧
    ((LineColLookup.new emojiText).get 22).2 = .ok 1 23 :=
  C4_cluster_column graphemeCount emojiText 22 (by decide) 1 6 (by decide)

/-- Claim C7: lines reported by `get` are monotone in the offset, and within
one line the columns are monotone as well. -/
theorem C7_get_monotone (src : List Char) (i j : Nat) (hij : i ≤ j)
    (hj : j ≤ byteLen src) (lni ci lnj cj : Nat)
    (hgi : ((LineColLookup.new src).get i).2 = .ok lni ci)
    (hgj : ((LineColLookup.new src).get j).2 = .ok lnj cj) :
    lni ≤ lnj ∧ (lni = lnj → ci ≤ cj) := by
  have hi : i ≤ byteLen src := le_trans hij hj
  have hfi := findLine_spec (computeHeads src) i (computeHeads_length_pos src)
    (by rw [computeHeads_getD_zero]; omega)
  have hfj := findLine_spec (computeHeads src) j (computeHeads_length_pos src)
    (by rw [computeHeads_getD_zero]; omega)
  rw [get_new_eq src i hi] at hgi
  rw [get_new_eq src j hj] at hgj
  obtain ⟨h1i, h2i⟩ := QueryResult.ok.inj hgi
  obtain ⟨h1j, h2j⟩ := QueryResult.ok.inj hgj
  have hLL : findLine (computeHeads src) i ≤ findLine (computeHeads src) j := by
    by_contra hcon
    push_neg at hcon
    have hx := hfj.2.2 (by omega)
    have hy := pairwise_getD_le (computeHeads src) (computeHeads_pairwise src)
      (findLine (computeHeads src) j + 1) (findLine (computeHeads src) i)
      (by omega) hfi.1
    have hz := hfi.2.1
    omega
  refine ⟨by omega, ?_⟩
  intro he
  have hLeq : findLine (computeHeads src) i = findLine (computeHeads src) j := by
    omega
  rw [hLeq] at h2i
  omega

/-- Witness for C7 on `"One\nTwo"` with offsets 1 and 5. -/
theorem C7_get_monotone_witness : (1 : Nat) ≤ 2 ∧ ((1 : Nat) = 2 → (2 : Nat) ≤ 2) :=
  C7_get_monotone "One\nTwo".toList 1 5 (by decide) (by decide) 1 2 2 2
    (by decide) (by decide)

/-- Claim C8: on any in-range index where both queries return, `get` and
`get_by_cluster` report the same line number. -/
theorem C8_lines_agree (gc : List Char → Nat) (src : List Char) (index : Nat)
    (h : index ≤ byteLen src) (ln c ln' c' : Nat)
    (hg : ((LineColLookup.new src).get index).2 = .ok ln c)
    (hgc : (LineColLookup.get_by_cluster gc (LineColLookup.new src) index).2
      = .ok ln' c') :
    ln = ln' := by
  rw [get_new_eq src index h] at hg
  obtain ⟨h1, -⟩ := QueryResult.ok.inj hg
  cases hsl : sliceBytes src
      ((computeHeads src).getD (findLine (computeHeads src) index) 0) index with
  | some seg =>
    rw [get_by_cluster_new_ok gc src index h seg hsl] at hgc
    obtain ⟨h2, -⟩ := QueryResult.ok.inj hgc
    omega
  | none =>
    rw [get_by_cluster_new_panic gc src index h hsl] at hgc
    simp at hgc

/-- Witness for C8 on `"One\nTwo"` at offset 4. -/
theorem C8_lines_agree_witness : (2 : Nat) = 2 :=
  C8_lines_agree graphemeCount "One\nTwo".toList 4 (by decide) 2 1 2 1
    (by decide) (by decide)

/-- Claim C9: the line-start table is built lazily on first use and
memoized: a fresh lookup has an empty cache, the first `heads` call
populates it with `computeHeads src`, later `heads` calls return the very
same state and table, queries on a populated lookup leave the state
untouched, and no query mutates the source text. -/
theorem C9_lazy_memoized_immutable (src : List Char) (gc : List Char → Nat)
    (index : Nat) :
    (LineColLookup.new src).line_heads = none ∧
    (LineColLookup.new src).heads
      = (LineColLookup.populated src, some (computeHeads src)) ∧
    (LineColLookup.populated src).heads
      = (LineColLookup.populated src, some (computeHeads src)) ∧
    ((LineColLookup.populated src).get index).1 = LineColLookup.populated src ∧
    (LineColLookup.get_by_cluster gc (LineColLookup.populated src) index).1
      = LineColLookup.populated src ∧
    ((LineColLookup.new src).get index).1.src = src ∧
    (LineColLookup.get_by_cluster gc (LineColLookup.new src) index).1.src = src :=
  ⟨rfl, heads_new src, heads_populated_eq src, get_populated_state src index,
    get_by_cluster_populated_state gc src index, get_new_state_src src index,
    get_by_cluster_new_state_src gc src index⟩

/-- Claim C10: after any call to `heads` the cache is `Some`, so the
`if let Some` branch is always taken and the trailing `unreachable!()` is
never executed by `get` or `get_by_cluster` on any state and any index. -/
theorem C10_unreachable_never_executed (l : LineColLookup)
    (gc : List Char → Nat) (index : Nat) :
    (LineColLookup.heads l).2.isSome = true ∧
    (l.get index).2 ≠ .unreachableHit ∧
    (LineColLookup.get_by_cluster gc l index).2 ≠ .unreachableHit := by
  refine ⟨?_, get_never_unreachable l index,
    get_by_cluster_never_unreachable gc l index⟩
  obtain ⟨l', t, hht⟩ := heads_snd_eq l
  rw [hht]
  rfl

example : computeHeads "a\nab\nabc".toList = [0, 2, 5] := by decide
example : ((LineColLookup.new "One\nTwo".toList).get 4).2 = .ok 2 1 := by decide
example : ((LineColLookup.new "One\nTwo".toList).get 7).2 = .ok 2 4 := by decide
example : ((LineColLookup.new []).get 0).2 = .ok 1 1 := by decide
example : byteLen emojiText = 76 := by decide
example : ((LineColLookup.new emojiText).get 22).2 = .ok 1 23 := by decide
example :
    ((LineColLookup.get_by_cluster graphemeCount (LineColLookup.new emojiText)) 22).2
      = .ok 1 6 := by decide
example :
    ((LineColLookup.get_by_cluster graphemeCount (LineColLookup.new eAcuteText)) 1).2
      = .slicePanic := by decide
